import Mathlib

/-!
Verification of the venom message/codec core.

This file gives a shallow embedding of the parts of the `venom` library that the
claims address:

* `venom/serialization/__init__.py` — the `JSON` wire format: `encode`,
  `encode_field`, `_decode`, `decode_field`.
* `venom/fields.py` — `Field.default`, `Field.type` (lazy string resolution),
  `FieldDescriptor.json_name`, `_RepeatValueProxy`, `RepeatField.__get__`,
  `create_field_from_type_hint`.
* `venom/validation.py` (absent from the sources; modelled from the spec and
  from `src/tests/test_validation.py`) — schema validation with first-violation
  reporting and error paths.

Python values are embedded as the inductive `MValue`; machine-level `float`s are
modelled as rationals (`Rat`), which is faithful for the claims at hand: the
only float operation the code performs is the exact conversion `float(int)`.
Message classes are looked up in an environment `MsgEnv` by name, mirroring
Python's class references, and the mutually recursive encoder/decoder take a
fuel parameter to make the recursion through the environment well-founded.
-/

namespace Venom

/-- A Python value as stored in messages and appearing in JSON-like trees.
`map_` plays the role of a `dict` (JSON objects and `MapField` values),
`msg_` is a `Message` instance: its internal attribute-name keyed store. -/
inductive MValue where
  | none_ : MValue
  | bool_ : Bool → MValue
  | int_ : Int → MValue
  | float_ : Rat → MValue
  | str_ : String → MValue
  | bytes_ : List Nat → MValue
  | list_ : List MValue → MValue
  | map_ : List (String × MValue) → MValue
  | msg_ : List (String × MValue) → MValue
  deriving Repr

/-- Test for Python `value is None`. -/
def MValue.isNone : MValue → Bool
  | .none_ => true
  | _ => false

/-- A message-instance store or a decoded JSON object: ordered key/value pairs
(as a Python `dict`, insertion ordered). -/
abbrev Store := List (String × MValue)

/-- First-match association-list lookup, the embedding of `dict.__getitem__`
(`KeyError` becoming `none`). -/
def alookup : Store → String → Option MValue
  | [], _ => none
  | p :: rest, k => if p.1 = k then some p.2 else alookup rest k

/-- Scalar field types: `bool`, `int`, `float`, `venom.types.float32`,
`venom.types.float64`, `str`, `bytes`. -/
inductive ScalarTy where
  | tBool | tInt | tFloat | tFloat32 | tFloat64 | tStr | tBytes
  deriving DecidableEq, Repr

/-- Membership in the tuple `(float, float32, float64)` tested by
`JSON.decode_field` before widening an integer. -/
def ScalarTy.isFloat : ScalarTy → Bool
  | .tFloat | .tFloat32 | .tFloat64 => true
  | _ => false

/-- The kind of a field as dispatched on (by exact class) in `encode_field` /
`decode_field`: a plain scalar `Field`, a `RepeatField` over an item field, a
`MapField` over a value field, a `Field` whose type is a `Message` subclass
(referenced by class name), or a `ConverterField` holding the converter's wire
message name and its `format` / `convert` functions. -/
inductive FieldKind where
  | scalar : ScalarTy → FieldKind
  | rep : FieldKind → FieldKind
  | mapF : FieldKind → FieldKind
  | msgF : String → FieldKind
  | convF : String → (MValue → MValue) → (MValue → MValue) → FieldKind

/-- A declared field of a message type: its attribute name, whether it is
optional, and its kind. -/
structure FieldE where
  attr : String
  optional : Bool
  kind : FieldKind

/-- The class environment: message type name to its declared field list
(`cls.__fields__`, in declaration order). -/
abbrev MsgEnv := String → Option (List FieldE)

/-- Failures raised while encoding or decoding: exhausted recursion fuel,
the `ValueError()` raised by `JSON._decode` for a missing required field, or a
Python-level type error (iterating a non-sequence, formatting a non-message). -/
inductive Err where
  | outOfFuel | valueError | typeError
  deriving DecidableEq, Repr

/-- Sequential effectful map over a list, stopping at the first error
(the embedding of a Python list comprehension whose body may raise). -/
def mapE (f : α → Except Err β) : List α → Except Err (List β)
  | [] => .ok []
  | x :: xs =>
    match f x with
    | .error e => .error e
    | .ok y =>
      match mapE f xs with
      | .error e => .error e
      | .ok ys => .ok (y :: ys)

/-- The field loop of `JSON.encode`: for each declared field whose attribute is
present in the message store, emit the encoded field value under the attribute
key, in declaration order. -/
def encStore (encF : FieldKind → MValue → Except Err MValue) :
    List FieldE → Store → Except Err Store
  | [], _ => .ok []
  | f :: rest, store =>
    match alookup store f.attr with
    | none => encStore encF rest store
    | some v =>
      match encF f.kind v with
      | .error e => .error e
      | .ok j =>
        match encStore encF rest store with
        | .error e => .error e
        | .ok entries => .ok ((f.attr, j) :: entries)

/-- The field loop of `JSON._decode`: for each declared field, a missing
required attribute raises `ValueError()`, a missing optional attribute is
skipped, and a present attribute is decoded and stored.  Keys of the input that
match no declared field are never looked at. -/
def decStore (decF : FieldKind → MValue → Except Err MValue) :
    List FieldE → Store → Except Err Store
  | [], _ => .ok []
  | f :: rest, inst =>
    match alookup inst f.attr with
    | none =>
      if f.optional then decStore decF rest inst else .error .valueError
    | some j =>
      match decF f.kind j with
      | .error e => .error e
      | .ok v =>
        match decStore decF rest inst with
        | .error e => .error e
        | .ok s => .ok ((f.attr, v) :: s)

/-- `JSON.encode_field`.  A `None` value is returned unchanged; a repeated
field encodes its items elementwise; a map field encodes its values pointwise;
a converter field formats the value and encodes the result against the
converter's wire message type; a message-typed field encodes recursively;
anything else is passed through as already being JSON. -/
def encodeField (env : MsgEnv) : Nat → FieldKind → MValue → Except Err MValue
  | 0, _, _ => .error .outOfFuel
  | fuel + 1, k, v =>
    if v.isNone then .ok .none_
    else
      match k with
      | .rep items =>
        match v with
        | .list_ xs =>
          match mapE (fun x => encodeField env fuel items x) xs with
          | .error e => .error e
          | .ok ys => .ok (.list_ ys)
        | _ => .error .typeError
      | .mapF values =>
        match v with
        | .map_ kvs =>
          match mapE (fun kv =>
              match encodeField env fuel values kv.2 with
              | .error e => .error e
              | .ok w => .ok (kv.1, w)) kvs with
          | .error e => .error e
          | .ok kvs2 => .ok (.map_ kvs2)
        | _ => .error .typeError
      | .convF wire fmt _ =>
        match env wire with
        | none => .error .typeError
        | some wf =>
          match fmt v with
          | .msg_ s =>
            match encStore (fun k2 v2 => encodeField env fuel k2 v2) wf s with
            | .error e => .error e
            | .ok entries => .ok (.map_ entries)
          | _ => .error .typeError
      | .msgF nm =>
        match env nm with
        | none => .error .typeError
        | some fields =>
          match v with
          | .msg_ store =>
            match encStore (fun k2 v2 => encodeField env fuel k2 v2) fields store with
            | .error e => .error e
            | .ok entries => .ok (.map_ entries)
          | _ => .error .typeError
      | .scalar _ => .ok v

/-- `JSON.decode_field`.  A `None` input is returned unchanged; repeated and
map fields decode elementwise; a converter field decodes the wire message and
applies `converter.convert`; a message-typed field decodes recursively; an
integer destined for a float-typed field is widened with `float(instance)`;
anything else is passed through unchanged. -/
def decodeField (env : MsgEnv) : Nat → FieldKind → MValue → Except Err MValue
  | 0, _, _ => .error .outOfFuel
  | fuel + 1, k, j =>
    if j.isNone then .ok .none_
    else
      match k with
      | .rep items =>
        match j with
        | .list_ xs =>
          match mapE (fun x => decodeField env fuel items x) xs with
          | .error e => .error e
          | .ok ys => .ok (.list_ ys)
        | _ => .error .typeError
      | .mapF values =>
        match j with
        | .map_ kvs =>
          match mapE (fun kv =>
              match decodeField env fuel values kv.2 with
              | .error e => .error e
              | .ok w => .ok (kv.1, w)) kvs with
          | .error e => .error e
          | .ok kvs2 => .ok (.map_ kvs2)
        | _ => .error .typeError
      | .convF wire _ cv =>
        match env wire with
        | none => .error .typeError
        | some wf =>
          match j with
          | .map_ e =>
            match decStore (fun k2 j2 => decodeField env fuel k2 j2) wf e with
            | .error er => .error er
            | .ok s => .ok (cv (.msg_ s))
          | _ => .error .typeError
      | .msgF nm =>
        match env nm with
        | none => .error .typeError
        | some fields =>
          match j with
          | .map_ e =>
            match decStore (fun k2 j2 => decodeField env fuel k2 j2) fields e with
            | .error er => .error er
            | .ok s => .ok (.msg_ s)
          | _ => .error .typeError
      | .scalar ty =>
        match j with
        | .int_ n => if ty.isFloat then .ok (.float_ (n : Rat)) else .ok (.int_ n)
        | _ => .ok j

/-- `JSON.encode(message, cls)`: walk the declared fields of `cls` and build
the output object from the attributes present in the message store. -/
def jsonEncode (env : MsgEnv) (fuel : Nat) (fields : List FieldE) :
    MValue → Except Err MValue
  | .msg_ store =>
    match encStore (fun k v => encodeField env fuel k v) fields store with
    | .error e => .error e
    | .ok entries => .ok (.map_ entries)
  | _ => .error .typeError

/-- `JSON.decode(instance, cls)`.  Modelled from the spec: the
`JSONSchemaValidator` run by `decode` before `_decode` lives in
`venom/schema/validator.py`, which is absent from the sources; per the spec it
enforces required-field presence and ignores unknown keys — exactly the
conditions `_decode` itself enforces — so `decode`'s observable behaviour on
object inputs equals `_decode`'s, which is what is embedded here. -/
def jsonDecode (env : MsgEnv) (fuel : Nat) (fields : List FieldE) :
    MValue → Except Err MValue
  | .map_ e =>
    match decStore (fun k j => decodeField env fuel k j) fields e with
    | .error er => .error er
    | .ok s => .ok (.msg_ s)
  | _ => .error .typeError

/-! ### Python equality on embedded values

`Message.__eq__` (per the spec: same type and same stored values) compares the
internal stores as Python `dict`s, which ignores insertion order; and Python's
`==` identifies an `int` with the equal `float`.  `MEqv j v` is the embedding
of `j == v`, restricted to the identifications the round-trip claims need:
structural equality, `float(n) == n`, and order-insensitive store comparison
for message instances. -/

/-- Python `==` between a decoded value and an original stored value:
structural equality, except that a float compares equal to the integer it
widens, and message stores compare as (order-insensitive) dicts: the same keys
are present and the values found under each key are related. -/
inductive MEqv : MValue → MValue → Prop where
  | none_ : MEqv .none_ .none_
  | bool_ (b : Bool) : MEqv (.bool_ b) (.bool_ b)
  | int_ (n : Int) : MEqv (.int_ n) (.int_ n)
  | float_ (q : Rat) : MEqv (.float_ q) (.float_ q)
  | intFloat (n : Int) : MEqv (.float_ (n : Rat)) (.int_ n)
  | str_ (s : String) : MEqv (.str_ s) (.str_ s)
  | bytes_ (bs : List Nat) : MEqv (.bytes_ bs) (.bytes_ bs)
  | list_ {xs ys : List MValue} :
      List.Forall₂ MEqv xs ys → MEqv (.list_ xs) (.list_ ys)
  | map_ {kvs kvs2 : List (String × MValue)} :
      kvs.map Prod.fst = kvs2.map Prod.fst →
      List.Forall₂ MEqv (kvs.map Prod.snd) (kvs2.map Prod.snd) →
      MEqv (.map_ kvs) (.map_ kvs2)
  | msg_ {s t : Store} :
      (∀ k, alookup s k = none ↔ alookup t k = none) →
      (∀ k v w, alookup s k = some v → alookup t k = some w → MEqv v w) →
      MEqv (.msg_ s) (.msg_ t)

theorem mem_of_alookup {k : String} {v : MValue} {l : Store}
    (h : alookup l k = some v) : (k, v) ∈ l := by
  induction l with
  | nil => simp [alookup] at h
  | cons p rest ih =>
    rw [alookup] at h
    split at h
    · rename_i hk
      cases h
      rw [← hk]
      simp
    · exact List.mem_cons_of_mem _ (ih h)

theorem alookup_eq_none {l : Store} {k : String} :
    alookup l k = none ↔ k ∉ l.map Prod.fst := by
  induction l with
  | nil => simp [alookup]
  | cons p rest ih =>
    simp only [alookup, List.map_cons, List.mem_cons]
    split
    · rename_i hk
      simp [hk]
    · rename_i hk
      rw [ih]
      constructor
      · intro h hor
        rcases hor with he | hm
        · exact hk he.symm
        · exact h hm
      · intro h hm
        exact h (Or.inr hm)

/-- Every value is Python-equal to itself. -/
theorem MEqv.refl : (v : MValue) → MEqv v v
  | .none_ => .none_
  | .bool_ b => .bool_ b
  | .int_ n => .int_ n
  | .float_ q => .float_ q
  | .str_ s => .str_ s
  | .bytes_ bs => .bytes_ bs
  | .list_ xs => .list_ (List.forall₂_same.mpr (fun x hx => MEqv.refl x))
  | .map_ kvs =>
      .map_ rfl (List.forall₂_same.mpr (fun x hx => MEqv.refl x))
  | .msg_ s =>
      .msg_ (fun _ => Iff.rfl)
        (fun k v w hv hw => by
          rw [hv] at hw
          cases hw
          exact MEqv.refl v)
termination_by v => sizeOf v
decreasing_by
  · have := List.sizeOf_lt_of_mem hx
    simp only [MValue.list_.sizeOf_spec]
    omega
  · have h1 := List.mem_map.mp hx
    obtain ⟨p, hp, hpx⟩ := h1
    have h2 := List.sizeOf_lt_of_mem hp
    obtain ⟨a, b⟩ := p
    subst hpx
    simp only [MValue.map_.sizeOf_spec, Prod.mk.sizeOf_spec] at *
    omega
  · have h1 := List.sizeOf_lt_of_mem (mem_of_alookup hv)
    simp only [MValue.msg_.sizeOf_spec, Prod.mk.sizeOf_spec] at *
    omega

/-- Order-insensitive Python `dict` equality (modulo `MEqv` on values) between
a decoded store and an original store. -/
def StoreRel (s t : Store) : Prop :=
  (∀ k, alookup s k = none ↔ alookup t k = none) ∧
  (∀ k v w, alookup s k = some v → alookup t k = some w → MEqv v w)

/-! ### Association-list helpers -/

/-- Remove every binding of key `k` (used to peel one field off a store during
the round-trip induction). -/
def eraseK (k : String) (l : Store) : Store :=
  l.filter (fun p => !(p.1 == k))

theorem mem_eraseK {p : String × MValue} {k : String} {l : Store} :
    p ∈ eraseK k l ↔ p ∈ l ∧ p.1 ≠ k := by
  simp [eraseK, List.mem_filter]

theorem alookup_eraseK_ne {k k' : String} (h : k' ≠ k) :
    ∀ l : Store, alookup (eraseK k l) k' = alookup l k'
  | [] => rfl
  | p :: rest => by
    by_cases hp : p.1 = k
    · have hfilter : eraseK k (p :: rest) = eraseK k rest := by
        simp [eraseK, List.filter_cons, hp]
      have hne : ¬ p.1 = k' := by
        rw [hp]
        exact fun hh => h hh.symm
      rw [hfilter, alookup_eraseK_ne h rest, alookup, if_neg hne]
    · have hfilter : eraseK k (p :: rest) = p :: eraseK k rest := by
        simp [eraseK, List.filter_cons, hp]
      rw [hfilter, alookup, alookup]
      by_cases hp' : p.1 = k'
      · rw [if_pos hp', if_pos hp']
      · rw [if_neg hp', if_neg hp', alookup_eraseK_ne h rest]

theorem nodupKeys_eraseK {k : String} {l : Store}
    (h : (l.map Prod.fst).Nodup) : ((eraseK k l).map Prod.fst).Nodup :=
  h.sublist (List.Sublist.map Prod.fst (List.filter_sublist l))

/-- If pointwise encoding succeeded and each encoded element decodes back to a
related value, then the decoded list relates pointwise to the original. -/
theorem mapE_rel {α β γ : Type} (E : α → Except Err β) (D : β → Except Err γ)
    (R : γ → α → Prop) :
    ∀ {xs : List α} {ys : List β},
      mapE E xs = .ok ys →
      (∀ x ∈ xs, ∀ y, E x = .ok y → ∃ z, D y = .ok z ∧ R z x) →
      ∃ zs, mapE D ys = .ok zs ∧ List.Forall₂ R zs xs := by
  intro xs
  induction xs with
  | nil =>
    intro ys h hp
    simp only [mapE] at h
    cases h
    exact ⟨[], rfl, List.Forall₂.nil⟩
  | cons x rest ih =>
    intro ys h hp
    rw [mapE] at h
    cases hE : E x with
    | error e => rw [hE] at h; exact absurd h (by simp)
    | ok y =>
      rw [hE] at h
      cases hRest : mapE E rest with
      | error e => rw [hRest] at h; exact absurd h (by simp)
      | ok ys' =>
        rw [hRest] at h
        simp only [Except.ok.injEq] at h
        subst h
        obtain ⟨z, hD, hR⟩ := hp x (by simp) y hE
        obtain ⟨zs, hDs, hRs⟩ :=
          ih hRest (fun a ha b hb => hp a (by simp [ha]) b hb)
        refine ⟨z :: zs, ?_, List.Forall₂.cons hR hRs⟩
        rw [mapE, hD, hDs]

/-! ### Well-formed instances

`Ok env k v` says the stored value `v` is a well-formed instance of the field
kind `k`: message stores bind declared attributes only (each at most once, all
required ones present), and every converter encountered is lossless at the
value it holds.  These are the implicit hypotheses of the round-trip claim:
an "instance `m` of `T`" stores well-typed values for `T`'s fields, and its
converters lose no information. -/
inductive Ok (env : MsgEnv) : FieldKind → MValue → Prop where
  | none_ (k : FieldKind) : Ok env k .none_
  | scalar (ty : ScalarTy) (v : MValue) : Ok env (.scalar ty) v
  | rep {items : FieldKind} {xs : List MValue} :
      (∀ x ∈ xs, Ok env items x) → Ok env (.rep items) (.list_ xs)
  | mapF {values : FieldKind} {kvs : List (String × MValue)} :
      (∀ p ∈ kvs, Ok env values p.2) → Ok env (.mapF values) (.map_ kvs)
  | msgF {nm : String} {fields : List FieldE} {store : Store} :
      env nm = some fields →
      (fields.map FieldE.attr).Nodup →
      (store.map Prod.fst).Nodup →
      (∀ p ∈ store, p.1 ∈ fields.map FieldE.attr) →
      (∀ f ∈ fields, f.optional = false → alookup store f.attr ≠ none) →
      (∀ f ∈ fields, ∀ v, alookup store f.attr = some v → Ok env f.kind v) →
      Ok env (.msgF nm) (.msg_ store)
  | convF {wire : String} {fmt cv : MValue → MValue} {v : MValue} :
      Ok env (.msgF wire) (fmt v) →
      (∀ d, MEqv d (fmt v) → MEqv (cv d) v) →
      Ok env (.convF wire fmt cv) v

/-- The well-formedness conditions of a message instance's store relative to
its declared fields (the premises of `Ok.msgF`, bundled). -/
def MsgOk (env : MsgEnv) (fields : List FieldE) (store : Store) : Prop :=
  (fields.map FieldE.attr).Nodup ∧
  (store.map Prod.fst).Nodup ∧
  (∀ p ∈ store, p.1 ∈ fields.map FieldE.attr) ∧
  (∀ f ∈ fields, f.optional = false → alookup store f.attr ≠ none) ∧
  (∀ f ∈ fields, ∀ v, alookup store f.attr = some v → Ok env f.kind v)

/-- Keys emitted by the encode loop are declared attributes. -/
theorem encStore_keys {encF : FieldKind → MValue → Except Err MValue} :
    ∀ {fields : List FieldE} {store e : Store},
      encStore encF fields store = .ok e →
      ∀ p ∈ e, p.1 ∈ fields.map FieldE.attr
  | [], store, e, h => by
    simp only [encStore, Except.ok.injEq] at h
    subst h
    simp
  | f :: rest, store, e, h => by
    rw [encStore] at h
    cases hl : alookup store f.attr with
    | none =>
      rw [hl] at h
      dsimp only at h
      intro p hp
      have := encStore_keys h p hp
      simp only [List.map_cons, List.mem_cons]
      exact Or.inr this
    | some v =>
      rw [hl] at h
      dsimp only at h
      cases he : encF f.kind v with
      | error e2 => rw [he] at h; exact absurd h (by simp)
      | ok j =>
        rw [he] at h
        dsimp only at h
        cases hr : encStore encF rest store with
        | error e2 => rw [hr] at h; exact absurd h (by simp)
        | ok entries =>
          rw [hr] at h
          simp only [Except.ok.injEq] at h
          subst h
          intro p hp
          simp only [List.map_cons, List.mem_cons]
          rcases List.mem_cons.mp hp with rfl | hp2
          · exact Or.inl rfl
          · exact Or.inr (encStore_keys hr p hp2)

/-- The encode loop reads the store only through lookups at declared
attributes. -/
theorem encStore_congr (encF : FieldKind → MValue → Except Err MValue) :
    ∀ {fields : List FieldE} {s1 s2 : Store},
      (∀ f ∈ fields, alookup s1 f.attr = alookup s2 f.attr) →
      encStore encF fields s1 = encStore encF fields s2
  | [], _, _, _ => rfl
  | f :: rest, s1, s2, hag => by
    have hrec := encStore_congr encF
      (fun g hg => hag g (List.mem_cons_of_mem _ hg))
    rw [encStore, encStore, ← hag f (by simp)]
    cases alookup s1 f.attr with
    | none =>
      dsimp only
      exact hrec
    | some v =>
      dsimp only
      cases encF f.kind v with
      | error e => rfl
      | ok j => rw [hrec]

/-- The decode loop reads the input object only through lookups at declared
attributes. -/
theorem decStore_congr (decF : FieldKind → MValue → Except Err MValue) :
    ∀ {fields : List FieldE} {i1 i2 : Store},
      (∀ f ∈ fields, alookup i1 f.attr = alookup i2 f.attr) →
      decStore decF fields i1 = decStore decF fields i2
  | [], _, _, _ => rfl
  | f :: rest, i1, i2, hag => by
    have hrec := decStore_congr decF
      (fun g hg => hag g (List.mem_cons_of_mem _ hg))
    rw [decStore, decStore, ← hag f (by simp)]
    cases alookup i1 f.attr with
    | none =>
      dsimp only
      cases f.optional
      · rfl
      · exact hrec
    | some j =>
      dsimp only
      cases decF f.kind j with
      | error e => rfl
      | ok v => rw [hrec]

/-- Round trip of the per-message field loops: if every present field value is
well formed and encodes successfully, then decoding the encoded object
succeeds and produces a store dict-equal to the original. -/
theorem store_roundtrip {env : MsgEnv}
    {encF decF : FieldKind → MValue → Except Err MValue}
    (hpt : ∀ k v j, Ok env k v → encF k v = .ok j →
      ∃ w, decF k j = .ok w ∧ MEqv w v) :
    ∀ {fields : List FieldE} {store e : Store},
      MsgOk env fields store →
      encStore encF fields store = .ok e →
      ∃ s2, decStore decF fields e = .ok s2 ∧ StoreRel s2 store
  | [], store, e, hok, h => by
    simp only [encStore, Except.ok.injEq] at h
    subst h
    have hempty : store = [] := by
      cases store with
      | nil => rfl
      | cons p rest => exact absurd (hok.2.2.1 p (by simp)) (by simp)
    subst hempty
    exact ⟨[], rfl, fun _ => Iff.rfl, fun k v w hv => by simp [alookup] at hv⟩
  | f :: rest, store, e, hok, h => by
    obtain ⟨hnodF, hnodS, hsub, hreq, hvals⟩ := hok
    rw [List.map_cons, List.nodup_cons] at hnodF
    obtain ⟨hfne, hnodR⟩ := hnodF
    have hrest_ne : ∀ g ∈ rest, g.attr ≠ f.attr := by
      intro g hg he
      exact hfne (he ▸ List.mem_map_of_mem FieldE.attr hg)
    rw [encStore] at h
    cases hl : alookup store f.attr with
    | none =>
      rw [hl] at h
      dsimp only at h
      have hopt : f.optional = true := by
        cases ho : f.optional
        · exact absurd hl (hreq f (by simp) ho)
        · rfl
      have hkeys := encStore_keys h
      have hmiss : alookup e f.attr = none := by
        rw [alookup_eq_none]
        intro hmem
        obtain ⟨p, hp, hpe⟩ := List.mem_map.mp hmem
        exact hfne (hpe ▸ hkeys p hp)
      have hmok : MsgOk env rest store := by
        refine ⟨hnodR, hnodS, ?_, ?_, ?_⟩
        · intro p hp
          have hin := hsub p hp
          simp only [List.map_cons, List.mem_cons] at hin
          rcases hin with hpf | hin
          · exfalso
            have hnn : alookup store p.1 = none := by rw [hpf]; exact hl
            exact (alookup_eq_none.mp hnn) (List.mem_map_of_mem Prod.fst hp)
          · exact hin
        · exact fun g hg => hreq g (List.mem_cons_of_mem _ hg)
        · exact fun g hg => hvals g (List.mem_cons_of_mem _ hg)
      obtain ⟨s2, hdec, hrel⟩ := store_roundtrip hpt hmok h
      refine ⟨s2, ?_, hrel⟩
      simp only [decStore, hmiss, hopt]
      exact hdec
    | some v =>
      rw [hl] at h
      dsimp only at h
      cases he : encF f.kind v with
      | error e2 => rw [he] at h; exact absurd h (by simp)
      | ok j =>
        rw [he] at h
        dsimp only at h
        cases hr : encStore encF rest store with
        | error e2 => rw [hr] at h; exact absurd h (by simp)
        | ok entries =>
          rw [hr] at h
          simp only [Except.ok.injEq] at h
          subst h
          obtain ⟨w, hdw, hweq⟩ := hpt f.kind v j (hvals f (by simp) v hl) he
          have hagree : ∀ g ∈ rest,
              alookup ((f.attr, j) :: entries) g.attr = alookup entries g.attr := by
            intro g hg
            rw [alookup]
            exact if_neg (fun hh => hrest_ne g hg hh.symm)
          have herase : ∀ g ∈ rest,
              alookup (eraseK f.attr store) g.attr = alookup store g.attr :=
            fun g hg => alookup_eraseK_ne (hrest_ne g hg) store
          have hmok : MsgOk env rest (eraseK f.attr store) := by
            refine ⟨hnodR, nodupKeys_eraseK hnodS, ?_, ?_, ?_⟩
            · intro p hp
              obtain ⟨hpmem, hpne⟩ := mem_eraseK.mp hp
              have hin := hsub p hpmem
              simp only [List.map_cons, List.mem_cons] at hin
              rcases hin with hpf | hin
              · exact absurd hpf hpne
              · exact hin
            · intro g hg hgo
              rw [herase g hg]
              exact hreq g (List.mem_cons_of_mem _ hg) hgo
            · intro g hg v2 hv2
              rw [herase g hg] at hv2
              exact hvals g (List.mem_cons_of_mem _ hg) v2 hv2
          have henc2 : encStore encF rest (eraseK f.attr store) = .ok entries := by
            rw [encStore_congr encF herase]
            exact hr
          obtain ⟨s2, hdec, hrel⟩ := store_roundtrip hpt hmok henc2
          refine ⟨(f.attr, w) :: s2, ?_, ?_, ?_⟩
          · rw [decStore]
            have hhead : alookup ((f.attr, j) :: entries) f.attr = some j := by
              rw [alookup]
              exact if_pos rfl
            rw [hhead]
            dsimp only
            rw [hdw]
            dsimp only
            rw [decStore_congr decF hagree, hdec]
          · intro k
            rw [alookup]
            by_cases hk : f.attr = k
            · subst hk
              simp [hl]
            · rw [if_neg hk, ← alookup_eraseK_ne (fun hh => hk hh.symm) store]
              exact hrel.1 k
          · intro k a b ha hb
            rw [alookup] at ha
            by_cases hk : f.attr = k
            · subst hk
              rw [if_pos rfl] at ha
              cases ha
              rw [hl] at hb
              cases hb
              exact hweq
            · rw [if_neg hk] at ha
              have hb2 : alookup (eraseK f.attr store) k = some b := by
                rw [alookup_eraseK_ne (fun hh => hk hh.symm) store]
                exact hb
              exact hrel.2 k a b ha hb2

theorem forall2_pair_proj {zs xs : List (String × MValue)}
    (h : List.Forall₂ (fun z x => z.1 = x.1 ∧ MEqv z.2 x.2) zs xs) :
    zs.map Prod.fst = xs.map Prod.fst ∧
      List.Forall₂ MEqv (zs.map Prod.snd) (xs.map Prod.snd) := by
  induction h with
  | nil => exact ⟨rfl, List.Forall₂.nil⟩
  | cons hz hrest ih =>
    exact ⟨by simp [hz.1, ih.1], List.Forall₂.cons hz.2 ih.2⟩

/-- Round trip of a single field: a well-formed value that encodes
successfully decodes back to a Python-equal value, at the same fuel. -/
theorem decodeField_encodeField {env : MsgEnv} :
    ∀ (fuel : Nat) (k : FieldKind) (v j : MValue),
      Ok env k v → encodeField env fuel k v = .ok j →
      ∃ w, decodeField env fuel k j = .ok w ∧ MEqv w v := by
  intro fuel
  induction fuel with
  | zero =>
    intro k v j _ h
    rw [encodeField] at h
    exact absurd h (by simp)
  | succ n ih =>
    intro k v j hok h
    rw [encodeField.eq_def] at h
    dsimp only at h
    by_cases hnone : v.isNone
    · rw [if_pos hnone] at h
      simp only [Except.ok.injEq] at h
      subst h
      cases v
      · exact ⟨.none_, rfl, MEqv.none_⟩
      all_goals simp [MValue.isNone] at hnone
    · rw [if_neg hnone] at h
      cases hok with
      | none_ k => simp [MValue.isNone] at hnone
      | scalar ty v =>
        dsimp only at h
        simp only [Except.ok.injEq] at h
        subst h
        cases v with
        | int_ m =>
          by_cases hf : ty.isFloat
          · refine ⟨.float_ (m : Rat), ?_, MEqv.intFloat m⟩
            rw [decodeField.eq_def]
            simp [MValue.isNone, hf]
          · refine ⟨.int_ m, ?_, MEqv.refl _⟩
            rw [decodeField.eq_def]
            simp [MValue.isNone, hf]
        | none_ => simp [MValue.isNone] at hnone
        | bool_ b => exact ⟨.bool_ b, rfl, MEqv.refl _⟩
        | float_ q => exact ⟨.float_ q, rfl, MEqv.refl _⟩
        | str_ s => exact ⟨.str_ s, rfl, MEqv.refl _⟩
        | bytes_ bs => exact ⟨.bytes_ bs, rfl, MEqv.refl _⟩
        | list_ xs => exact ⟨.list_ xs, rfl, MEqv.refl _⟩
        | map_ kvs => exact ⟨.map_ kvs, rfl, MEqv.refl _⟩
        | msg_ s => exact ⟨.msg_ s, rfl, MEqv.refl _⟩
      | rep hxs =>
        dsimp only at h
        split at h
        · exact absurd h (by simp)
        · rename_i ys hm
          simp only [Except.ok.injEq] at h
          subst h
          obtain ⟨zs, hdec, hall⟩ :=
            mapE_rel _ (fun x => decodeField env n _ x) MEqv hm
              (fun x hx y hy => ih _ x y (hxs x hx) hy)
          refine ⟨.list_ zs, ?_, MEqv.list_ hall⟩
          rw [decodeField.eq_def]
          simp [MValue.isNone, hdec]
      | mapF hkvs =>
        dsimp only at h
        split at h
        · exact absurd h (by simp)
        · rename_i kvs2 hm
          simp only [Except.ok.injEq] at h
          subst h
          obtain ⟨zs, hdec, hall⟩ :=
            mapE_rel _
              (fun kv : String × MValue =>
                match decodeField env n _ kv.2 with
                | .error e => .error e
                | .ok w => .ok (kv.1, w))
              (fun z x => z.1 = x.1 ∧ MEqv z.2 x.2) hm
              (fun x hx y hy => by
                cases hE : encodeField env n _ x.2 with
                | error e2 => rw [hE] at hy; exact absurd hy (by simp)
                | ok w =>
                  rw [hE] at hy
                  dsimp only at hy
                  simp only [Except.ok.injEq] at hy
                  subst hy
                  obtain ⟨z2, hz2, hzeq⟩ := ih _ x.2 w (hkvs x hx) hE
                  exact ⟨(x.1, z2), by dsimp only; rw [hz2], rfl, hzeq⟩)
          obtain ⟨hfst, hsnd⟩ := forall2_pair_proj hall
          refine ⟨.map_ zs, ?_, MEqv.map_ hfst hsnd⟩
          rw [decodeField.eq_def]
          simp [MValue.isNone, hdec]
      | msgF henv hnodF2 hnodS2 hsub2 hreq2 hvals2 =>
        dsimp only at h
        rw [henv] at h
        dsimp only at h
        split at h
        · exact absurd h (by simp)
        · rename_i entries henc
          simp only [Except.ok.injEq] at h
          subst h
          obtain ⟨s2, hdec, hrel⟩ :=
            store_roundtrip (fun k2 v2 j2 hok2 he2 => ih k2 v2 j2 hok2 he2)
              ⟨hnodF2, hnodS2, hsub2, hreq2, hvals2⟩ henc
          refine ⟨.msg_ s2, ?_, MEqv.msg_ hrel.1 hrel.2⟩
          rw [decodeField.eq_def]
          simp [MValue.isNone, henv, hdec]
      | convF hwmsg hlaw =>
        dsimp only at h
        cases henvw : env _ with
        | none => rw [henvw] at h; simp at h
        | some wf =>
          rw [henvw] at h
          dsimp only at h
          split at h
          · rename_i s hfmt
            split at h
            · exact absurd h (by simp)
            · rename_i entries henc
              simp only [Except.ok.injEq] at h
              subst h
              rw [hfmt] at hwmsg
              cases hwmsg with
              | msgF henv2 hnf hns hsb hrq hvl =>
                rw [henvw] at henv2
                injection henv2 with hfw
                subst hfw
                obtain ⟨s2, hdec, hrel⟩ :=
                  store_roundtrip (fun k2 v2 j2 hok2 he2 => ih k2 v2 j2 hok2 he2)
                    ⟨hnf, hns, hsb, hrq, hvl⟩ henc
                refine ⟨_, ?_,
                  hlaw (.msg_ s2) (by rw [hfmt]; exact MEqv.msg_ hrel.1 hrel.2)⟩
                rw [decodeField.eq_def]
                simp [MValue.isNone, henvw, hdec]
          · exact absurd h (by simp)

/-- Claim C1: for every message type `T` and every instance `m` of `T` whose
fields involve no lossy converters (and whose store is a well-formed instance
of `T`'s declared fields), decoding the result of `JSON.encode(m, T)` with
`JSON.decode(·, T)` succeeds and yields a message equal (as Python `==`) to
`m`, across nested message fields, repeated fields, and map fields. -/
theorem json_encode_decode_roundtrip {env : MsgEnv} {fuel : Nat}
    {fields : List FieldE} {store : Store} {e : MValue}
    (hok : MsgOk env fields store)
    (henc : jsonEncode env fuel fields (.msg_ store) = .ok e) :
    ∃ s2, jsonDecode env fuel fields e = .ok (.msg_ s2) ∧
      MEqv (.msg_ s2) (.msg_ store) := by
  rw [jsonEncode] at henc
  split at henc
  · exact absurd henc (by simp)
  · rename_i entries hencS
    simp only [Except.ok.injEq] at henc
    subst henc
    obtain ⟨s2, hdec, hrel⟩ :=
      store_roundtrip (fun k v j a b => decodeField_encodeField fuel k v j a b)
        hok hencS
    refine ⟨s2, ?_, MEqv.msg_ hrel.1 hrel.2⟩
    rw [jsonDecode, hdec]

/-- If a required field is missing from the input, the decode loop never
returns a message. -/
theorem decStore_missing_required (decF : FieldKind → MValue → Except Err MValue) :
    ∀ {fields : List FieldE} {inst : Store} {f : FieldE},
      f ∈ fields → f.optional = false → alookup inst f.attr = none →
      ∀ s, decStore decF fields inst ≠ .ok s
  | g :: rest, inst, f, hf, hopt, hmiss, s, h => by
    rw [decStore] at h
    rcases List.mem_cons.mp hf with rfl | hf2
    · rw [hmiss] at h
      dsimp only at h
      rw [hopt] at h
      exact absurd h (by simp)
    · cases hl : alookup inst g.attr with
      | none =>
        rw [hl] at h
        dsimp only at h
        cases hgo : g.optional with
        | false => rw [hgo] at h; exact absurd h (by simp)
        | true =>
          rw [hgo] at h
          exact decStore_missing_required decF hf2 hopt hmiss s h
      | some j =>
        rw [hl] at h
        dsimp only at h
        cases hd : decF g.kind j with
        | error e2 => rw [hd] at h; exact absurd h (by simp)
        | ok v =>
          rw [hd] at h
          dsimp only at h
          cases hr : decStore decF rest inst with
          | error e2 => rw [hr] at h; exact absurd h (by simp)
          | ok s2 => exact decStore_missing_required decF hf2 hopt hmiss s2 hr

/-- Drop the keys of a decode input that match no declared field. -/
def stripUnknown (fields : List FieldE) (inst : Store) : Store :=
  inst.filter (fun p => (fields.map FieldE.attr).elem p.1)

theorem alookup_filter_of_key {q : String × MValue → Bool} {a : String} :
    ∀ {l : Store}, (∀ p : String × MValue, p.1 = a → q p = true) →
      alookup (l.filter q) a = alookup l a
  | [], _ => rfl
  | p :: rest, hq => by
    have hrec : alookup (rest.filter q) a = alookup rest a :=
      alookup_filter_of_key hq
    rw [List.filter_cons]
    by_cases hp : p.1 = a
    · rw [hq p hp]
      simp [alookup, hp, hrec]
    · cases hqp : q p with
      | false => simp [alookup, hp, hrec]
      | true => simp [alookup, hp, hrec]

/-- Claim C2: decoding fails outright when a non-optional declared field is
absent from the input object, and keys that match no declared field are
ignored: decoding an input equals decoding the same input with its unknown
keys stripped. -/
theorem decode_missing_required_and_unknown_keys (env : MsgEnv) (fuel : Nat)
    (fields : List FieldE) (inst : Store) :
    ((∃ f ∈ fields, f.optional = false ∧ alookup inst f.attr = none) →
      ∀ m, jsonDecode env fuel fields (.map_ inst) ≠ .ok m) ∧
    jsonDecode env fuel fields (.map_ inst) =
      jsonDecode env fuel fields (.map_ (stripUnknown fields inst)) := by
  constructor
  · rintro ⟨f, hf, hopt, hmiss⟩ m hm
    rw [jsonDecode] at hm
    split at hm
    · exact absurd hm (by simp)
    · rename_i s hs
      exact decStore_missing_required _ hf hopt hmiss s hs
  · rw [jsonDecode, jsonDecode]
    have hag : ∀ f ∈ fields,
        alookup inst f.attr = alookup (stripUnknown fields inst) f.attr := by
      intro f hf
      rw [stripUnknown, alookup_filter_of_key]
      intro p hp
      rw [hp]
      exact List.elem_eq_true_of_mem (List.mem_map_of_mem FieldE.attr hf)
    rw [decStore_congr _ hag]

/-- Claim C7: `decode_field` widens an integer input to an equal float when
the field's type is one of `float`, `float32`, `float64`, and passes any other
scalar input through unchanged. -/
theorem decode_field_int_widening (env : MsgEnv) (fuel : Nat) (ty : ScalarTy) :
    (∀ n : Int, ty.isFloat = true →
      decodeField env (fuel + 1) (.scalar ty) (.int_ n) = .ok (.float_ (n : Rat))) ∧
    (∀ j : MValue, (ty.isFloat = true → ∀ n : Int, j ≠ .int_ n) →
      decodeField env (fuel + 1) (.scalar ty) j = .ok j) := by
  constructor
  · intro n hf
    rw [decodeField.eq_def]
    simp [MValue.isNone, hf]
  · intro j hj
    cases j with
    | none_ => rfl
    | int_ n =>
      cases hf : ty.isFloat with
      | true => exact absurd rfl (hj hf n)
      | false =>
        rw [decodeField.eq_def]
        simp [MValue.isNone, hf]
    | bool_ b => rfl
    | float_ q => rfl
    | str_ s => rfl
    | bytes_ bs => rfl
    | list_ xs => rfl
    | map_ kvs => rfl
    | msg_ s => rfl

/-- Claim C10: for every field kind — scalar, converter, repeated, map, or
nested message — a `None` value passes through `encode_field` and
`decode_field` unchanged, without entering the per-kind dispatch. -/
theorem codec_none_passthrough (env : MsgEnv) (fuel : Nat) (k : FieldKind) :
    encodeField env (fuel + 1) k .none_ = .ok .none_ ∧
    decodeField env (fuel + 1) k .none_ = .ok .none_ :=
  ⟨rfl, rfl⟩

/-! ### Concrete message types used by the witnesses -/

/-- A one-message environment: `Inner` has a single required int field `a`. -/
def envW : MsgEnv := fun nm =>
  if nm = "Inner" then some [⟨"a", false, .scalar .tInt⟩] else none

/-- An outer message type exercising scalar, nested-message, repeated, map and
optional fields. -/
def fieldsW : List FieldE :=
  [⟨"name", false, .scalar .tStr⟩,
   ⟨"inner", true, .msgF "Inner"⟩,
   ⟨"tags", true, .rep (.scalar .tStr)⟩,
   ⟨"scores", true, .mapF (.scalar .tInt)⟩,
   ⟨"opt", true, .scalar .tBool⟩]

/-- A populated instance of the outer message type (`opt` left unset). -/
def storeW : Store :=
  [("name", .str_ "hi"),
   ("inner", .msg_ [("a", .int_ 3)]),
   ("tags", .list_ [.str_ "x", .str_ "y"]),
   ("scores", .map_ [("k", .int_ 7)])]

theorem msgOkW : MsgOk envW fieldsW storeW := by
  refine ⟨by decide, by decide, ?_, ?_, ?_⟩
  · intro p hp
    simp only [storeW, List.mem_cons, List.not_mem_nil, or_false] at hp
    rcases hp with rfl | rfl | rfl | rfl <;> decide
  · intro f hf hfo
    simp only [fieldsW, List.mem_cons, List.not_mem_nil, or_false] at hf
    rcases hf with rfl | rfl | rfl | rfl | rfl <;> simp_all [storeW, alookup]
  · intro f hf v hv
    simp only [fieldsW, List.mem_cons, List.not_mem_nil, or_false] at hf
    rcases hf with rfl | rfl | rfl | rfl | rfl
    · have hv2 : some (MValue.str_ "hi") = some v := hv
      cases hv2
      exact Ok.scalar _ _
    · have hv2 : some (MValue.msg_ [("a", MValue.int_ 3)]) = some v := hv
      cases hv2
      refine Ok.msgF (by rfl) (by decide) (by decide) ?_ ?_ ?_
      · intro p hp
        simp only [List.mem_cons, List.not_mem_nil, or_false] at hp
        subst hp
        decide
      · intro f hf hfo
        simp only [List.mem_cons, List.not_mem_nil, or_false] at hf
        subst hf
        simp [alookup]
      · intro f hf v2 hv2
        simp only [List.mem_cons, List.not_mem_nil, or_false] at hf
        subst hf
        have hv3 : some (MValue.int_ 3) = some v2 := hv2
        cases hv3
        exact Ok.scalar _ _
    · have hv2 : some (MValue.list_ [MValue.str_ "x", MValue.str_ "y"]) = some v := hv
      cases hv2
      refine Ok.rep ?_
      intro x hx
      simp only [List.mem_cons, List.not_mem_nil, or_false] at hx
      rcases hx with rfl | rfl <;> exact Ok.scalar _ _
    · have hv2 : some (MValue.map_ [("k", MValue.int_ 7)]) = some v := hv
      cases hv2
      refine Ok.mapF ?_
      intro p hp
      simp only [List.mem_cons, List.not_mem_nil, or_false] at hp
      subst hp
      exact Ok.scalar _ _
    · have hv2 : (none : Option MValue) = some v := hv
      cases hv2

theorem json_encode_decode_roundtrip_witness :
    ∃ s2, jsonDecode envW 3 fieldsW
        (.map_ [("name", .str_ "hi"), ("inner", .map_ [("a", .int_ 3)]),
          ("tags", .list_ [.str_ "x", .str_ "y"]),
          ("scores", .map_ [("k", .int_ 7)])]) = .ok (.msg_ s2) ∧
      MEqv (.msg_ s2) (.msg_ storeW) :=
  json_encode_decode_roundtrip msgOkW rfl

theorem decode_missing_required_and_unknown_keys_witness :
    jsonDecode envW 1 [⟨"req", false, .scalar .tInt⟩] (.map_ [("junk", .int_ 5)]) ≠
        .ok (.msg_ []) ∧
      jsonDecode envW 1 [⟨"req", false, .scalar .tInt⟩]
          (.map_ [("junk", .int_ 5), ("req", .int_ 2)]) =
        jsonDecode envW 1 [⟨"req", false, .scalar .tInt⟩] (.map_ [("req", .int_ 2)]) :=
  ⟨fun h =>
    (decode_missing_required_and_unknown_keys envW 1
        [⟨"req", false, .scalar .tInt⟩] [("junk", .int_ 5)]).1
      ⟨⟨"req", false, .scalar .tInt⟩, by simp, rfl, rfl⟩ _ h,
   by
    have h2 := (decode_missing_required_and_unknown_keys envW 1
      [⟨"req", false, .scalar .tInt⟩] [("junk", .int_ 5), ("req", .int_ 2)]).2
    simpa [stripUnknown] using h2⟩

theorem decode_field_int_widening_witness :
    decodeField envW 1 (.scalar .tFloat) (.int_ 4) = .ok (.float_ ((4 : Int) : Rat)) ∧
    decodeField envW 1 (.scalar .tStr) (.str_ "a") = .ok (.str_ "a") :=
  ⟨(decode_field_int_widening envW 0 .tFloat).1 4 rfl,
   (decode_field_int_widening envW 0 .tStr).2 (.str_ "a") (by simp)⟩

/-! ### The live repeated-field view

`RepeatField.__get__` returns `_RepeatValueProxy(instance, self.name)`: a view
holding only a reference to the message and the field name.  Every read goes
through `_sequence` (a fresh lookup of the message's store), and every
mutation first writes the sequence back under the field name and then mutates
it in place.  In the embedding the message store is threaded explicitly: each
proxy operation is a function from the store to the updated store, and each
read is a function of the current store. -/

/-- Python `dict.__setitem__`: replace the value under an existing key in
place, or append a new binding. -/
def setK : Store → String → MValue → Store
  | [], k, v => [(k, v)]
  | p :: rest, k, v => if p.1 = k then (k, v) :: rest else p :: setK rest k v

/-- `_RepeatValueProxy._sequence`: the stored list for the field name, or a
fresh empty list when the attribute is unset (`KeyError`).  (For a repeated
field the stored value is always a list; any other stored value is read as
empty here.) -/
def proxySequence (store : Store) (name : String) : List MValue :=
  match alookup store name with
  | some (.list_ xs) => xs
  | _ => []

/-- Python `list.insert` for non-negative indices: positions past the end
append (the index is clamped to the length). -/
def pyInsertIdx (i : Nat) (v : MValue) (xs : List MValue) : List MValue :=
  xs.insertIdx (min i xs.length) v

/-- `_RepeatValueProxy.insert`: store the current sequence under the field
name and insert into it. -/
def proxyInsert (store : Store) (name : String) (i : Nat) (v : MValue) : Store :=
  setK store name (.list_ (pyInsertIdx i v (proxySequence store name)))

/-- `_RepeatValueProxy.__delitem__`. -/
def proxyDelete (store : Store) (name : String) (i : Nat) : Store :=
  setK store name (.list_ ((proxySequence store name).eraseIdx i))

/-- `_RepeatValueProxy.__setitem__`. -/
def proxySet (store : Store) (name : String) (i : Nat) (v : MValue) : Store :=
  setK store name (.list_ ((proxySequence store name).set i v))

/-- `_RepeatValueProxy.__getitem__` (for an in-range non-negative index). -/
def proxyGet (store : Store) (name : String) (i : Nat) : Option MValue :=
  (proxySequence store name)[i]?

/-- `_RepeatValueProxy.__len__`. -/
def proxyLen (store : Store) (name : String) : Nat :=
  (proxySequence store name).length

theorem alookup_setK_self : ∀ (s : Store) (k : String) (v : MValue),
    alookup (setK s k v) k = some v
  | [], k, v => by simp [setK, alookup]
  | p :: rest, k, v => by
    by_cases hp : p.1 = k
    · simp [setK, hp, alookup]
    · simp [setK, hp, alookup, alookup_setK_self rest k v]

/-- Claim C4: the repeated-field view is live.  Insert, delete and
set-at-index write straight back into the message's stored sequence for the
field name, and subsequent reads — through the view (`_sequence`, `__len__`,
`__getitem__`), through `m[f]` (`alookup`), or through `encode` on the same
instance — all see the current backing storage. -/
theorem repeat_proxy_live_view (store : Store) (nm : String) (i : Nat) (v : MValue) :
    alookup (proxyInsert store nm i v) nm =
        some (.list_ (pyInsertIdx i v (proxySequence store nm))) ∧
    alookup (proxyDelete store nm i) nm =
        some (.list_ ((proxySequence store nm).eraseIdx i)) ∧
    alookup (proxySet store nm i v) nm =
        some (.list_ ((proxySequence store nm).set i v)) ∧
    proxySequence (proxyInsert store nm i v) nm =
        pyInsertIdx i v (proxySequence store nm) ∧
    proxyLen (proxyInsert store nm i v) nm = (proxySequence store nm).length + 1 ∧
    (i ≤ (proxySequence store nm).length →
      proxyGet (proxyInsert store nm i v) nm i = some v) ∧
    (∀ (env : MsgEnv) (fuel : Nat) (opt : Bool) (k : FieldKind),
      encStore (fun k2 v2 => encodeField env (fuel + 1) k2 v2)
          [⟨nm, opt, .rep k⟩] (proxyInsert store nm i v) =
        match mapE (fun x => encodeField env fuel k x)
            (pyInsertIdx i v (proxySequence store nm)) with
        | .error e => .error e
        | .ok ys => .ok [(nm, .list_ ys)]) := by
  have hseq : proxySequence (proxyInsert store nm i v) nm =
      pyInsertIdx i v (proxySequence store nm) := by
    rw [proxySequence, proxyInsert, alookup_setK_self]
  refine ⟨alookup_setK_self _ _ _, alookup_setK_self _ _ _,
    alookup_setK_self _ _ _, hseq, ?_, ?_, ?_⟩
  · rw [proxyLen, hseq, pyInsertIdx,
      List.length_insertIdx _ _ (Nat.min_le_right i _)]
  · intro hi
    rw [proxyGet, hseq, pyInsertIdx, Nat.min_eq_left hi]
    have hlen : i < ((proxySequence store nm).insertIdx i v).length := by
      rw [List.length_insertIdx _ _ hi]
      omega
    rw [List.getElem?_eq_getElem hlen, List.getElem_insertIdx_self _ _ _ hi]
  · intro env fuel opt k
    rw [encStore, proxyInsert, alookup_setK_self]
    dsimp only
    rw [encodeField.eq_def]
    dsimp only [MValue.isNone]
    cases mapE (fun x => encodeField env fuel k x)
        (pyInsertIdx i v (proxySequence store nm)) with
    | error e => rfl
    | ok ys => rfl

/-- Witness for the live-view theorem at a concrete store: a two-element
`tags` list, inserting `"z"` at position 1. -/
theorem repeat_proxy_live_view_witness :
    proxySequence (proxyInsert storeW "tags" 1 (.str_ "z")) "tags" =
        [.str_ "x", .str_ "z", .str_ "y"] ∧
      proxyGet (proxyInsert storeW "tags" 1 (.str_ "z")) "tags" 1 =
        some (.str_ "z") := by
  have h := repeat_proxy_live_view storeW "tags" 1 (.str_ "z")
  exact ⟨h.2.2.2.1, h.2.2.2.2.2.1 (by decide)⟩

/-! ### Schema validation

Modelled from the spec: `venom/validation.py` (`Schema`, `MessageValidator`,
`ValidationError`) is not among the sources.  The model follows §4.4 of the
spec and the behaviour pinned by `src/tests/test_validation.py`: fields are
walked in declaration order; a repeated field checks its item-count bounds
(outer) before its items in order (inner); the first violation is raised as a
`ValidationError` carrying a message `repr(value) + " is too short"` or
`+ " is too long"` and the path of attribute-name/index steps from the
message root. -/

/-- One step of a validation-error path: an attribute name or a list index. -/
inductive PathStep where
  | attr : String → PathStep
  | idx : Nat → PathStep
  deriving DecidableEq, Repr

/-- A `ValidationError`: its message (`args[0]`) and its `path`. -/
structure VError where
  msg : String
  path : List PathStep
  deriving DecidableEq, Repr

/-- Python `repr` of a simple string (one containing no quotes or escapes). -/
def pyReprStr (s : String) : String := "'" ++ s ++ "'"

/-- Python `repr` of a list of simple strings. -/
def pyReprStrList (l : List String) : String :=
  "[" ++ String.intercalate ", " (l.map pyReprStr) ++ "]"

/-- Per-field `Schema` bounds: string length and repeated item count. -/
structure VSchema where
  minLength : Option Nat
  maxLength : Option Nat
  minItems : Option Nat
  maxItems : Option Nat

/-- A validated value: a string field or a repeated string field. -/
inductive VValue where
  | vstr : String → VValue
  | vlist : List String → VValue

/-- A declared field under validation. -/
structure VField where
  attr : String
  schema : VSchema
  repeated : Bool

def tooShortStr (sch : VSchema) (s : String) : Bool :=
  match sch.minLength with
  | some m => s.length < m
  | none => false

def tooLongStr (sch : VSchema) (s : String) : Bool :=
  match sch.maxLength with
  | some m => s.length > m
  | none => false

def tooFewItems (sch : VSchema) (n : Nat) : Bool :=
  match sch.minItems with
  | some m => n < m
  | none => false

def tooManyItems (sch : VSchema) (n : Nat) : Bool :=
  match sch.maxItems with
  | some m => n > m
  | none => false

/-- Validate one string against its length bounds, raising on the first
violated bound. -/
def validateStr (sch : VSchema) (s : String) (path : List PathStep) :
    Except VError Unit :=
  if tooShortStr sch s then .error ⟨pyReprStr s ++ " is too short", path⟩
  else if tooLongStr sch s then .error ⟨pyReprStr s ++ " is too long", path⟩
  else .ok ()

/-- Validate a repeated field's item count, raising with the repr of the whole
list. -/
def validateCount (sch : VSchema) (xs : List String) (path : List PathStep) :
    Except VError Unit :=
  if tooFewItems sch xs.length then
    .error ⟨pyReprStrList xs ++ " is too short", path⟩
  else if tooManyItems sch xs.length then
    .error ⟨pyReprStrList xs ++ " is too long", path⟩
  else .ok ()

/-- Validate the items of a repeated field in order, the index joining the
path. -/
def validateItems (sch : VSchema) (attr : String) : Nat → List String →
    Except VError Unit
  | _, [] => .ok ()
  | i, s :: rest =>
    match validateStr sch s [.attr attr, .idx i] with
    | .error e => .error e
    | .ok _ => validateItems sch attr (i + 1) rest

/-- Validate one field's value: scalar bounds for a string field; count bounds
then item bounds for a repeated field. -/
def validateFieldV (f : VField) (v : VValue) : Except VError Unit :=
  match f.repeated, v with
  | false, .vstr s => validateStr f.schema s [.attr f.attr]
  | true, .vlist xs =>
    match validateCount f.schema xs [.attr f.attr] with
    | .error e => .error e
    | .ok _ => validateItems f.schema f.attr 0 xs
  | _, _ => .ok ()

/-- `MessageValidator.validate`: walk the declared fields in order and raise
the first violation found. -/
def validateMessage : List VField → (String → Option VValue) →
    Except VError Unit
  | [], _ => .ok ()
  | f :: rest, get =>
    match
      (match get f.attr with
        | some v => validateFieldV f v
        | none => .ok ()) with
    | .error e => .error e
    | .ok _ => validateMessage rest get

/-! The list of all violations in traversal order, used to state that
validation reports exactly the first one. -/

def strViolations (sch : VSchema) (s : String) (path : List PathStep) :
    List VError :=
  (if tooShortStr sch s then [⟨pyReprStr s ++ " is too short", path⟩] else []) ++
  (if tooLongStr sch s then [⟨pyReprStr s ++ " is too long", path⟩] else [])

def countViolations (sch : VSchema) (xs : List String) (path : List PathStep) :
    List VError :=
  (if tooFewItems sch xs.length then
    [⟨pyReprStrList xs ++ " is too short", path⟩] else []) ++
  (if tooManyItems sch xs.length then
    [⟨pyReprStrList xs ++ " is too long", path⟩] else [])

def itemViolations (sch : VSchema) (attr : String) : Nat → List String →
    List VError
  | _, [] => []
  | i, s :: rest =>
    strViolations sch s [.attr attr, .idx i] ++ itemViolations sch attr (i + 1) rest

def fieldViolations (f : VField) (v : VValue) : List VError :=
  match f.repeated, v with
  | false, .vstr s => strViolations f.schema s [.attr f.attr]
  | true, .vlist xs =>
    countViolations f.schema xs [.attr f.attr] ++
      itemViolations f.schema f.attr 0 xs
  | _, _ => []

def messageViolations : List VField → (String → Option VValue) → List VError
  | [], _ => []
  | f :: rest, get =>
    (match get f.attr with
      | some v => fieldViolations f v
      | none => []) ++ messageViolations rest get

/-- The failure carrying the first violation of a traversal, if any. -/
def firstErr : List VError → Except VError Unit
  | [] => .ok ()
  | e :: _ => .error e

theorem firstErr_append (l1 l2 : List VError) :
    (match firstErr l1 with
      | .error e => (.error e : Except VError Unit)
      | .ok _ => firstErr l2) = firstErr (l1 ++ l2) := by
  cases l1 <;> rfl

theorem validateStr_eq (sch : VSchema) (s : String) (path : List PathStep) :
    validateStr sch s path = firstErr (strViolations sch s path) := by
  rw [validateStr, strViolations]
  cases h1 : tooShortStr sch s <;> cases h2 : tooLongStr sch s <;>
    simp [firstErr]

theorem validateCount_eq (sch : VSchema) (xs : List String)
    (path : List PathStep) :
    validateCount sch xs path = firstErr (countViolations sch xs path) := by
  rw [validateCount, countViolations]
  cases h1 : tooFewItems sch xs.length <;>
    cases h2 : tooManyItems sch xs.length <;> simp [firstErr]

theorem validateItems_eq (sch : VSchema) (attr : String) :
    ∀ (i : Nat) (xs : List String),
      validateItems sch attr i xs = firstErr (itemViolations sch attr i xs)
  | _, [] => rfl
  | i, s :: rest => by
    rw [validateItems, itemViolations, ← firstErr_append, validateStr_eq,
      validateItems_eq sch attr (i + 1) rest]

theorem validateFieldV_eq (f : VField) (v : VValue) :
    validateFieldV f v = firstErr (fieldViolations f v) := by
  obtain ⟨attr, sch, rep⟩ := f
  cases rep <;> cases v
  case false.vstr s => exact validateStr_eq sch s _
  case false.vlist xs => rfl
  case true.vstr s => rfl
  case true.vlist xs =>
    rw [validateFieldV.eq_def, fieldViolations.eq_def]
    dsimp only
    rw [← firstErr_append, validateCount_eq, validateItems_eq]

theorem validateMessage_eq :
    ∀ (fields : List VField) (get : String → Option VValue),
      validateMessage fields get = firstErr (messageViolations fields get)
  | [], _ => rfl
  | f :: rest, get => by
    rw [validateMessage, messageViolations, ← firstErr_append,
      validateMessage_eq rest get]
    cases get f.attr with
    | none => rfl
    | some v =>
      dsimp only
      rw [validateFieldV_eq]

/-- Claim C3: schema validation raises exactly one failure — the first
violation in field-declaration order, item order within a repeated field —
whose message is `repr(value) + " is too short"|" is too long"` (the repr of
the whole list for item-count violations) and whose path lists the
attribute-name/index steps from the message root; checked both in general
(validation returns the head of the ordered violation list) and on the
concrete message types of `test_validation.py`. -/
theorem validation_reports_first_violation :
    (∀ (fields : List VField) (get : String → Option VValue),
      validateMessage fields get = firstErr (messageViolations fields get)) ∧
    (let sch : VSchema := ⟨some 3, some 5, none, none⟩
     let nameField : List VField := [⟨"name", sch, false⟩]
     validateMessage nameField
         (fun a => if a = "name" then some (.vstr "x") else none) =
       .error ⟨"'x' is too short", [.attr "name"]⟩ ∧
     validateMessage nameField
         (fun a => if a = "name" then some (.vstr "xxxxxxxxxx") else none) =
       .error ⟨"'xxxxxxxxxx' is too long", [.attr "name"]⟩ ∧
     validateMessage nameField
         (fun a => if a = "name" then some (.vstr "xxx") else none) = .ok () ∧
     validateMessage nameField
         (fun a => if a = "name" then some (.vstr "xxxx") else none) = .ok ()) ∧
    (let sch : VSchema := ⟨some 3, some 5, none, some 5⟩
     let namesField : List VField := [⟨"names", sch, true⟩]
     validateMessage namesField
         (fun a => if a = "names" then some (.vlist ["x"]) else none) =
       .error ⟨"'x' is too short", [.attr "names", .idx 0]⟩ ∧
     validateMessage namesField
         (fun a => if a = "names" then
           some (.vlist ["xxx", "xxxxxxxxxx"]) else none) =
       .error ⟨"'xxxxxxxxxx' is too long", [.attr "names", .idx 1]⟩ ∧
     validateMessage namesField
         (fun a => if a = "names" then
           some (.vlist ["xxx", "xxxx"]) else none) = .ok () ∧
     validateMessage namesField
         (fun a => if a = "names" then
           some (.vlist ["xxx", "xxx", "xxx", "xxx", "xxx",
             "xxx", "xxx", "xxx", "xxx", "xxx"]) else none) =
       .error ⟨String.append
           "['xxx', 'xxx', 'xxx', 'xxx', 'xxx', 'xxx', 'xxx', 'xxx', 'xxx', 'xxx']"
           " is too long",
         [.attr "names"]⟩) :=
  ⟨validateMessage_eq, ⟨rfl, rfl, rfl, rfl⟩, ⟨rfl, rfl, rfl, rfl⟩⟩

/-! ### Field type resolution and defaults

`Field._type` is either a native type or a qualified-name string that the
`type` cached property resolves lazily through `import_module` and `getattr`,
modelled by an environment mapping module names to their exported types.
`cached_property` itself is in `venom/util.py`, absent from the sources;
per the spec ("Resolution result is cached after first success") a successful
access stores the resolved type and a raising access stores nothing. -/

/-- A native Python type a field can resolve to. -/
inductive PyTy where
  | pbool | pint | pfloat | pstr | pbytes
  | pmsg : String → PyTy
  deriving DecidableEq, Repr

/-- A Python value as returned by `Field.default`. -/
inductive PyVal where
  | vbool : Bool → PyVal
  | vint : Int → PyVal
  | vfloat : Rat → PyVal
  | vstr : String → PyVal
  | vbytes : List Nat → PyVal
  | vmsgInst : String → PyVal
  deriving DecidableEq, Repr

/-- Constructing a type with no arguments: `bool()` is `False`, `int()` is
`0`, `float()` is `0.0`, `str()` is the empty string, `bytes()` is the empty
bytes, and a message type gives its empty instance. -/
def zeroValue : PyTy → PyVal
  | .pbool => .vbool false
  | .pint => .vint 0
  | .pfloat => .vfloat 0
  | .pstr => .vstr ""
  | .pbytes => .vbytes []
  | .pmsg n => .vmsgInst n

/-- Failures of `Field.type`: `ModuleNotFoundError` from `import_module`,
`AttributeError` from `getattr`, and the `RuntimeError('Unable to resolve: …')`
raised for a dotless string. -/
inductive ResErr where
  | importError | attributeError | runtimeError
  deriving DecidableEq, Repr

/-- The importable modules: module name to its exported type names. -/
abbrev ModuleEnv := String → Option (String → Option PyTy)

/-- Split a character list at every occurrence of a separator (the semantics
of Python `str.split(sep)`: the empty string yields one empty part). -/
def splitOnCharAux (sep : Char) : List Char → List (List Char)
  | [] => [[]]
  | c :: rest =>
    match splitOnCharAux sep rest with
    | [] => [[]]
    | grp :: grps =>
      if c = sep then [] :: grp :: grps else (c :: grp) :: grps

/-- Python `str.split(sep)` for a one-character separator. -/
def splitString (sep : Char) (s : String) : List String :=
  (splitOnCharAux sep s.data).map String.mk

/-- Python `sep in s` for a one-character needle. -/
def strContains (sep : Char) (s : String) : Bool :=
  s.data.contains sep

/-- `self._type.rsplit('.', 1)`: split a qualified name into module path and
class name at the last dot. -/
def rsplitDot (s : String) : String × String :=
  (String.intercalate "." (splitString '.' s).dropLast,
    (splitString '.' s).getLastD "")

/-- The string branch of `Field.type`: a dotted name is resolved as module
plus attribute; a dotless string raises `RuntimeError`. -/
def resolveTypeStr (env : ModuleEnv) (s : String) : Except ResErr PyTy :=
  if strContains '.' s then
    match env (rsplitDot s).1 with
    | none => .error .importError
    | some mod =>
      match mod (rsplitDot s).2 with
      | none => .error .attributeError
      | some t => .ok t
  else .error .runtimeError

/-- A `Field`'s type/default state: the declared `_type` (string or native),
the declared `_default` (`None` meaning none was given), and the
`cached_property` slot backing `type`. -/
structure PyField where
  typeDecl : String ⊕ PyTy
  defaultVal : Option PyVal
  typeCache : Option PyTy
  deriving Repr

/-- Accessing `Field.type`: the cached value if present; otherwise resolve
(a native declared type resolves to itself) and cache on success.  Returns
the resolved type together with the field's state after the access. -/
def fieldType (env : ModuleEnv) (f : PyField) : Except ResErr (PyTy × PyField) :=
  match f.typeCache with
  | some t => .ok (t, f)
  | none =>
    match f.typeDecl with
    | .inr t => .ok (t, ⟨f.typeDecl, f.defaultVal, some t⟩)
    | .inl s =>
      match resolveTypeStr env s with
      | .error e => .error e
      | .ok t => .ok (t, ⟨f.typeDecl, f.defaultVal, some t⟩)

/-- `Field.default()`: the explicit default if one was given, else
`self.type()`, the zero value of the resolved type. -/
def fieldDefault (env : ModuleEnv) (f : PyField) :
    Except ResErr (PyVal × PyField) :=
  match f.defaultVal with
  | some d => .ok (d, f)
  | none =>
    match fieldType env f with
    | .error e => .error e
    | .ok (t, f2) => .ok (zeroValue t, f2)

/-- A successful `type` access leaves the resolved type in the cache, after
which access no longer consults the module environment at all. -/
theorem fieldType_cached {env : ModuleEnv} {f f2 : PyField} {t : PyTy}
    (h : fieldType env f = .ok (t, f2)) :
    f2.typeCache = some t ∧ ∀ env2, fieldType env2 f2 = .ok (t, f2) := by
  rw [fieldType] at h
  cases hc : f.typeCache with
  | some t0 =>
    rw [hc] at h
    dsimp only at h
    simp only [Except.ok.injEq, Prod.mk.injEq] at h
    obtain ⟨rfl, rfl⟩ := h
    exact ⟨hc, fun env2 => by rw [fieldType, hc]⟩
  | none =>
    rw [hc] at h
    dsimp only at h
    cases hd : f.typeDecl with
    | inr t0 =>
      rw [hd] at h
      dsimp only at h
      simp only [Except.ok.injEq, Prod.mk.injEq] at h
      obtain ⟨rfl, rfl⟩ := h
      exact ⟨rfl, fun env2 => by rw [fieldType]⟩
    | inl s =>
      rw [hd] at h
      dsimp only at h
      cases hr : resolveTypeStr env s with
      | error e => rw [hr] at h; exact absurd h (by simp)
      | ok t0 =>
        rw [hr] at h
        dsimp only at h
        simp only [Except.ok.injEq, Prod.mk.injEq] at h
        obtain ⟨rfl, rfl⟩ := h
        exact ⟨rfl, fun env2 => by rw [fieldType]⟩

/-- A `type` access never changes the declared type or default. -/
theorem fieldType_preserves {env : ModuleEnv} {f f2 : PyField} {t : PyTy}
    (h : fieldType env f = .ok (t, f2)) :
    f2.typeDecl = f.typeDecl ∧ f2.defaultVal = f.defaultVal := by
  rw [fieldType] at h
  cases hc : f.typeCache with
  | some t0 =>
    rw [hc] at h
    dsimp only at h
    simp only [Except.ok.injEq, Prod.mk.injEq] at h
    obtain ⟨rfl, rfl⟩ := h
    exact ⟨rfl, rfl⟩
  | none =>
    rw [hc] at h
    dsimp only at h
    cases hd : f.typeDecl with
    | inr t0 =>
      rw [hd] at h
      dsimp only at h
      simp only [Except.ok.injEq, Prod.mk.injEq] at h
      obtain ⟨rfl, rfl⟩ := h
      exact ⟨rfl, rfl⟩
    | inl s =>
      rw [hd] at h
      dsimp only at h
      cases hr : resolveTypeStr env s with
      | error e => rw [hr] at h; exact absurd h (by simp)
      | ok t0 =>
        rw [hr] at h
        dsimp only at h
        simp only [Except.ok.injEq, Prod.mk.injEq] at h
        obtain ⟨rfl, rfl⟩ := h
        exact ⟨rfl, rfl⟩

/-- Claim C5: with no explicit default, `default()` returns the zero value of
the field's resolved type (the type constructed with no arguments); with an
explicit default it returns that default; and a repeated call returns an
equal value. -/
theorem field_default_value (env : ModuleEnv) (f : PyField) :
    (f.defaultVal = none → ∀ (t : PyTy) (f2 : PyField),
      fieldType env f = .ok (t, f2) →
      fieldDefault env f = .ok (zeroValue t, f2)) ∧
    (∀ d, f.defaultVal = some d → fieldDefault env f = .ok (d, f)) ∧
    (∀ (v : PyVal) (f2 : PyField), fieldDefault env f = .ok (v, f2) →
      fieldDefault env f2 = .ok (v, f2)) := by
  refine ⟨?_, ?_, ?_⟩
  · intro hdef t f2 ht
    rw [fieldDefault, hdef, ht]
  · intro d hdef
    rw [fieldDefault, hdef]
  · intro v f2 h
    rw [fieldDefault] at h
    cases hdef : f.defaultVal with
    | some d =>
      rw [hdef] at h
      dsimp only at h
      simp only [Except.ok.injEq, Prod.mk.injEq] at h
      obtain ⟨rfl, rfl⟩ := h
      rw [fieldDefault, hdef]
    | none =>
      rw [hdef] at h
      dsimp only at h
      cases ht : fieldType env f with
      | error e => rw [ht] at h; exact absurd h (by simp)
      | ok p =>
        obtain ⟨t, f3⟩ := p
        rw [ht] at h
        dsimp only at h
        simp only [Except.ok.injEq, Prod.mk.injEq] at h
        obtain ⟨rfl, rfl⟩ := h
        have hdef2 : f3.defaultVal = none :=
          (fieldType_preserves ht).2.trans hdef
        rw [fieldDefault, hdef2, (fieldType_cached ht).2 env]

/-- Claim C8: accessing the `type` of a string-declared field resolves the
string through dynamic module lookup; a dotless string, an unknown module, or
an unknown attribute each raise a resolution failure; a successful resolution
is cached, and every later access returns the cached type without consulting
the environment again. -/
theorem field_type_string_resolution (env : ModuleEnv) (f : PyField) (s : String) :
    (f.typeCache = none → f.typeDecl = .inl s →
      fieldType env f =
        (match resolveTypeStr env s with
          | .error e => .error e
          | .ok t => .ok (t, ⟨f.typeDecl, f.defaultVal, some t⟩))) ∧
    (¬strContains '.' s = true → resolveTypeStr env s = .error .runtimeError) ∧
    (strContains '.' s = true → env (rsplitDot s).1 = none →
      resolveTypeStr env s = .error .importError) ∧
    (∀ mod, strContains '.' s = true → env (rsplitDot s).1 = some mod →
      mod (rsplitDot s).2 = none →
      resolveTypeStr env s = .error .attributeError) ∧
    (∀ mod t, strContains '.' s = true → env (rsplitDot s).1 = some mod →
      mod (rsplitDot s).2 = some t → f.typeCache = none → f.typeDecl = .inl s →
      fieldType env f = .ok (t, ⟨f.typeDecl, f.defaultVal, some t⟩)) ∧
    (∀ (t : PyTy) (f2 : PyField), fieldType env f = .ok (t, f2) →
      f2.typeCache = some t ∧ ∀ env2, fieldType env2 f2 = .ok (t, f2)) := by
  refine ⟨?_, ?_, ?_, ?_, ?_, fun t f2 h => fieldType_cached h⟩
  · intro hc hd
    rw [fieldType, hc, hd]
  · intro hdot
    rw [resolveTypeStr, if_neg hdot]
  · intro hdot henv
    rw [resolveTypeStr, if_pos hdot, henv]
  · intro mod hdot henv hmod
    rw [resolveTypeStr, if_pos hdot, henv]
    dsimp only
    rw [hmod]
  · intro mod t hdot henv hmod hc hd
    rw [fieldType, hc, hd]
    dsimp only
    rw [resolveTypeStr, if_pos hdot, henv]
    dsimp only
    rw [hmod]

/-- A concrete module environment: one importable module exporting one type,
as in `Field('venom.rpc.reflect.openapi.SchemaMessage')`. -/
def modEnvW : ModuleEnv := fun m =>
  if m = "venom.rpc.reflect.openapi" then
    some (fun c => if c = "SchemaMessage" then some (.pmsg "SchemaMessage") else none)
  else none

theorem field_default_value_witness :
    fieldDefault modEnvW ⟨.inr .pstr, none, none⟩ =
        .ok (.vstr "", ⟨.inr .pstr, none, some .pstr⟩) ∧
      fieldDefault modEnvW ⟨.inr .pint, some (.vint 7), none⟩ =
        .ok (.vint 7, ⟨.inr .pint, some (.vint 7), none⟩) ∧
      fieldDefault modEnvW ⟨.inr .pstr, none, some .pstr⟩ =
        .ok (.vstr "", ⟨.inr .pstr, none, some .pstr⟩) :=
  ⟨(field_default_value modEnvW ⟨.inr .pstr, none, none⟩).1 rfl .pstr
      ⟨.inr .pstr, none, some .pstr⟩ rfl,
   (field_default_value modEnvW ⟨.inr .pint, some (.vint 7), none⟩).2.1
      (.vint 7) rfl,
   (field_default_value modEnvW ⟨.inr .pstr, none, none⟩).2.2 (.vstr "")
      ⟨.inr .pstr, none, some .pstr⟩
      ((field_default_value modEnvW ⟨.inr .pstr, none, none⟩).1 rfl .pstr
        ⟨.inr .pstr, none, some .pstr⟩ rfl)⟩

theorem field_type_string_resolution_witness :
    fieldType modEnvW
        ⟨.inl "venom.rpc.reflect.openapi.SchemaMessage", none, none⟩ =
        .ok (.pmsg "SchemaMessage",
          ⟨.inl "venom.rpc.reflect.openapi.SchemaMessage", none,
            some (.pmsg "SchemaMessage")⟩) ∧
      resolveTypeStr modEnvW "SchemaMessage" = .error .runtimeError ∧
      resolveTypeStr modEnvW "nosuch.Thing" = .error .importError ∧
      resolveTypeStr modEnvW "venom.rpc.reflect.openapi.Missing" =
        .error .attributeError ∧
      fieldType (fun _ => none)
          ⟨.inl "venom.rpc.reflect.openapi.SchemaMessage", none,
            some (.pmsg "SchemaMessage")⟩ =
        .ok (.pmsg "SchemaMessage",
          ⟨.inl "venom.rpc.reflect.openapi.SchemaMessage", none,
            some (.pmsg "SchemaMessage")⟩) := by
  have h5 := (field_type_string_resolution modEnvW
      ⟨.inl "venom.rpc.reflect.openapi.SchemaMessage", none, none⟩
      "venom.rpc.reflect.openapi.SchemaMessage").2.2.2.2.1
    (fun c => if c = "SchemaMessage" then some (.pmsg "SchemaMessage") else none)
    (.pmsg "SchemaMessage") (by decide) rfl rfl rfl rfl
  refine ⟨h5, ?_, ?_, ?_, ?_⟩
  · exact (field_type_string_resolution modEnvW
      ⟨.inl "SchemaMessage", none, none⟩ "SchemaMessage").2.1 (by decide)
  · exact (field_type_string_resolution modEnvW
      ⟨.inl "nosuch.Thing", none, none⟩ "nosuch.Thing").2.2.1 (by decide) rfl
  · exact (field_type_string_resolution modEnvW
      ⟨.inl "venom.rpc.reflect.openapi.Missing", none, none⟩
      "venom.rpc.reflect.openapi.Missing").2.2.2.1
      (fun c => if c = "SchemaMessage" then some (.pmsg "SchemaMessage") else none)
      (by decide) rfl rfl
  · exact ((field_type_string_resolution modEnvW
      ⟨.inl "venom.rpc.reflect.openapi.SchemaMessage", none, none⟩
      "venom.rpc.reflect.openapi.SchemaMessage").2.2.2.2.2
      (.pmsg "SchemaMessage")
      ⟨.inl "venom.rpc.reflect.openapi.SchemaMessage", none,
        some (.pmsg "SchemaMessage")⟩ h5).2 (fun _ => none)

/-! ### Wire naming -/

/-- ASCII `str.capitalize` of a snake-case part: upper-case the first
character. -/
def capitalizePart (s : String) : String :=
  match s.data with
  | [] => ""
  | c :: rest => String.mk (Char.toUpper c :: rest)

/-- Modelled from the spec: `camelcase` lives in `venom/util.py`, which is
absent from the sources; the spec fixes it as the lower_snake to
lowerCamelCase conversion, embedded as: split on underscores, keep the first
part, capitalize and append the remaining parts. -/
def camelcase (s : String) : String :=
  match splitString '_' s with
  | [] => ""
  | h :: t => h ++ String.join (t.map capitalizePart)

/-- The name-relevant state of a `FieldDescriptor`: the attribute name and
the optional explicit `json_name`. -/
structure FieldNaming where
  name : String
  jsonNameOverride : Option String

/-- `FieldDescriptor.json_name`: the explicit wire name when one was given,
else `camelcase(self.name)`. -/
def jsonName (f : FieldNaming) : String :=
  match f.jsonNameOverride with
  | none => camelcase f.name
  | some j => j

/-- Claim C9: with no explicit wire name, a field's external JSON key is the
lowerCamelCase conversion of its attribute name; with an explicit wire name
(such as the literal `$ref`), that literal is the external key instead. -/
theorem json_name_default_and_override (f : FieldNaming) :
    (f.jsonNameOverride = none → jsonName f = camelcase f.name) ∧
    (∀ j, f.jsonNameOverride = some j → jsonName f = j) ∧
    jsonName ⟨"ref", some "$ref"⟩ = "$ref" ∧
    camelcase "base_path" = "basePath" ∧
    camelcase "additional_properties" = "additionalProperties" ∧
    camelcase "name" = "name" := by
  refine ⟨?_, ?_, rfl, by decide, by decide, by decide⟩
  · intro h
    rw [jsonName, h]
  · intro j h
    rw [jsonName, h]

theorem json_name_witness :
    jsonName ⟨"base_path", none⟩ = "basePath" ∧
      jsonName ⟨"ref", some "$ref"⟩ = "$ref" :=
  ⟨((json_name_default_and_override ⟨"base_path", none⟩).1 rfl).trans
      (json_name_default_and_override ⟨"base_path", none⟩).2.2.2.1,
   (json_name_default_and_override ⟨"ref", some "$ref"⟩).2.1 "$ref" rfl⟩

/-! ### Field inference from type hints -/

/-- A type hint as dispatched on by `create_field_from_type_hint`: the five
scalar hints, `List[T]`, a `Message` subclass, some other type (e.g. a
converter's native type such as `datetime`), or `typing.Any`. -/
inductive THint where
  | hbool | hint | hfloat | hstr | hbytes
  | hlist : THint → THint
  | hmsg : String → THint
  | hcustom : String → THint
  | hany
  deriving DecidableEq, Repr

/-- How the hint prints inside the error message. -/
def hintName : THint → String
  | .hbool => "bool"
  | .hint => "int"
  | .hfloat => "float"
  | .hstr => "str"
  | .hbytes => "bytes"
  | .hlist t => "List[" ++ hintName t ++ "]"
  | .hmsg n => n
  | .hcustom n => n
  | .hany => "Any"

/-- Membership in the tuple `(bool, int, float, str, bytes)`. -/
def THint.isScalar : THint → Bool
  | .hbool | .hint | .hfloat | .hstr | .hbytes => true
  | _ => false

/-- A converter as consulted by the registry: its native (`python`) type and
a name identifying which converter it is. -/
structure ConvDesc where
  python : THint
  id : String

/-- The field produced by inference: a plain `Field` over the hint, a
`ConverterField` holding the chosen converter, or a `RepeatField` over the
field derived for the item hint. -/
inductive DerivedField where
  | plain : THint → DerivedField
  | convF : String → DerivedField
  | repeatF : DerivedField → DerivedField
  deriving DecidableEq, Repr

/-- The dispatch of `create_field_from_type_hint`, with the one recursive
call (the derivation of a `List[T]` hint's item field) passed in as `rec`:
scalar hints first; then the first converter whose native type equals the
hint; then `List[T]`; then `Message` subclasses; anything else raises
`NotImplementedError` naming the hint. -/
def createFieldDispatch (hint : THint) (converters : List ConvDesc)
    (rec : Except String DerivedField) : Except String DerivedField :=
  match hint.isScalar with
  | true => .ok (.plain hint)
  | false =>
    match converters.find? (fun c => c.python == hint) with
    | some c => .ok (.convF c.id)
    | none =>
      match hint with
      | .hlist _ =>
        match rec with
        | .error e => .error e
        | .ok f => .ok (.repeatF f)
      | .hmsg n => .ok (.plain (.hmsg n))
      | _ => .error ("Unable to generate field for " ++ hintName hint)

/-- `create_field_from_type_hint`: the dispatch above, recursing on the item
hint of a `List[T]` with the default empty converter sequence, exactly as the
source does. -/
def createFieldFromTypeHint : THint → List ConvDesc → Except String DerivedField
  | .hlist t, converters =>
    createFieldDispatch (.hlist t) converters (createFieldFromTypeHint t [])
  | hint, converters => createFieldDispatch hint converters (.error "")

/-- Unfolding lemma: on every hint, `createFieldFromTypeHint` is the dispatch
applied to the recursive item derivation (which only a `List[T]` hint ever
consults). -/
theorem createFieldFromTypeHint_unfold (hint : THint) (converters : List ConvDesc) :
    createFieldFromTypeHint hint converters =
      (match hint.isScalar with
        | true => .ok (.plain hint)
        | false =>
          match converters.find? (fun c => c.python == hint) with
          | some c => .ok (.convF c.id)
          | none =>
            match hint with
            | .hlist t =>
              match createFieldFromTypeHint t [] with
              | .error e => .error e
              | .ok f => .ok (.repeatF f)
            | .hmsg n => .ok (.plain (.hmsg n))
            | _ => .error ("Unable to generate field for " ++ hintName hint)) := by
  cases hint <;> rfl

/-- The first converter in the sequence whose native type matches is the one
found. -/
theorem find?_converter_first {hint : THint} :
    ∀ (pre post : List ConvDesc) (c : ConvDesc),
      (∀ c2 ∈ pre, ¬c2.python = hint) → c.python = hint →
      (pre ++ c :: post).find? (fun c2 => c2.python == hint) = some c
  | [], post, c, _, hc => by
    rw [List.nil_append]
    exact List.find?_cons_of_pos _ (by simp [hc])
  | p :: pre2, post, c, hpre, hc => by
    rw [List.cons_append,
      List.find?_cons_of_neg _ (by simp [hpre p (by simp)]),
      find?_converter_first pre2 post c
        (fun c2 h2 => hpre c2 (List.mem_cons_of_mem _ h2)) hc]

/-- Claim C6: scalar hints give a plain `Field` of that type; a non-scalar
hint equal to some converter's native type gives a `ConverterField` with the
first matching converter of the sequence; `List[T]` gives a `RepeatField`
over the field derived for `T`; a `Message`-subtype hint gives a plain
`Field` of that message type; any other hint raises a derivation error naming
the hint. -/
theorem create_field_from_type_hint_cases (converters : List ConvDesc) :
    (∀ hint : THint, hint.isScalar = true →
      createFieldFromTypeHint hint converters = .ok (.plain hint)) ∧
    (∀ (hint : THint) (pre post : List ConvDesc) (c : ConvDesc),
      hint.isScalar = false → converters = pre ++ c :: post →
      (∀ c2 ∈ pre, ¬c2.python = hint) → c.python = hint →
      createFieldFromTypeHint hint converters = .ok (.convF c.id)) ∧
    (∀ (t : THint) (f : DerivedField),
      converters.find? (fun c2 => c2.python == THint.hlist t) = none →
      createFieldFromTypeHint t [] = .ok f →
      createFieldFromTypeHint (.hlist t) converters = .ok (.repeatF f)) ∧
    (∀ n : String,
      converters.find? (fun c2 => c2.python == THint.hmsg n) = none →
      createFieldFromTypeHint (.hmsg n) converters = .ok (.plain (.hmsg n))) ∧
    (∀ n : String,
      converters.find? (fun c2 => c2.python == THint.hcustom n) = none →
      createFieldFromTypeHint (.hcustom n) converters =
        .error ("Unable to generate field for " ++ n)) ∧
    (converters.find? (fun c2 => c2.python == THint.hany) = none →
      createFieldFromTypeHint .hany converters =
        .error ("Unable to generate field for " ++ "Any")) := by
  refine ⟨?_, ?_, ?_, ?_, ?_, ?_⟩
  · intro hint hs
    rw [createFieldFromTypeHint_unfold, hs]
  · intro hint pre post c hs hconv hpre hc
    rw [createFieldFromTypeHint_unfold, hs]
    dsimp only
    rw [hconv, find?_converter_first pre post c hpre hc]
  · intro t f hfind hrec
    rw [createFieldFromTypeHint_unfold]
    dsimp only [THint.isScalar]
    rw [hfind]
    dsimp only
    rw [hrec]
  · intro n hfind
    rw [createFieldFromTypeHint_unfold]
    dsimp only [THint.isScalar]
    rw [hfind]
  · intro n hfind
    rw [createFieldFromTypeHint_unfold]
    dsimp only [THint.isScalar]
    rw [hfind]
    rfl
  · intro hfind
    rw [createFieldFromTypeHint_unfold]
    dsimp only [THint.isScalar]
    rw [hfind]
    rfl

theorem create_field_from_type_hint_witness :
    createFieldFromTypeHint .hstr [⟨.hcustom "datetime", "DateTimeConverter"⟩] =
        .ok (.plain .hstr) ∧
      createFieldFromTypeHint (.hcustom "datetime")
          [⟨.hcustom "datetime", "DateTimeConverter"⟩] =
        .ok (.convF "DateTimeConverter") ∧
      createFieldFromTypeHint (.hlist .hstr)
          [⟨.hcustom "datetime", "DateTimeConverter"⟩] =
        .ok (.repeatF (.plain .hstr)) ∧
      createFieldFromTypeHint (.hmsg "HelloRequest")
          [⟨.hcustom "datetime", "DateTimeConverter"⟩] =
        .ok (.plain (.hmsg "HelloRequest")) ∧
      createFieldFromTypeHint (.hcustom "set")
          [⟨.hcustom "datetime", "DateTimeConverter"⟩] =
        .error "Unable to generate field for set" := by
  have h := create_field_from_type_hint_cases
    [⟨.hcustom "datetime", "DateTimeConverter"⟩]
  refine ⟨h.1 .hstr rfl, ?_, ?_, ?_, ?_⟩
  · exact h.2.1 (.hcustom "datetime") [] []
      ⟨.hcustom "datetime", "DateTimeConverter"⟩ rfl rfl (by simp) rfl
  · exact h.2.2.1 .hstr (.plain .hstr) rfl
      ((create_field_from_type_hint_cases []).1 .hstr rfl)
  · exact h.2.2.2.1 "HelloRequest" rfl
  · exact h.2.2.2.2.1 "set" rfl

end Venom
